import Mathlib

/-!
Verification of the bebi103-9-2 library against its design description.

The repository has three modules:
* `bacteria.py` — growth-event detection (`detect_growth_events`) and
  per-event time normalization (`normalize_times`);
* `image.py` — zero-crossing edge detection (`zero_crossing_filter`) and a
  Laplacian-of-Gaussian segmentation pipeline
  (`laplacian_of_gaussian_segmentation`);
* `model.py` — growth models, least-squares MLE (`growth_area_mle_lstq`),
  Normal log-likelihood (`log_likelihood`) and AIC (`compute_AIC`).

Numeric values from the Python code are embedded as rationals (for the
list/image code, which only compares and subtracts) and as reals (for the
statistics code, which needs `sqrt`, `exp`, `log` and `π`).  Calls into
external scientific libraries (scipy, skimage) are embedded either by their
documented elementwise meaning (`np.diff`, `np.unique`, boolean-mask
indexing, `maximum_filter`/`minimum_filter` with a 3×3 footprint,
`scipy.stats.norm.logpdf`, `skimage.measure.label`) or, where the claim does
not depend on their internals (Sobel gradient, Gaussian-Laplace filter,
skeletonization, hole filling, small-object removal, border clearing, the
least-squares solver), as explicit function parameters.
-/

/-! ## bacteria.py -/

/-- Consecutive differences of a list, embedding `np.diff(areas)`:
`diff l` has one element fewer than `l` and its `i`-th entry is
`l[i+1] - l[i]`.  `np.diff` of an empty or singleton array is empty. -/
def diff : List ℚ → List ℚ
  | [] => []
  | [_] => []
  | a :: b :: rest => (b - a) :: diff (b :: rest)

/-- The loop of `detect_growth_events`: for each boolean
`d < threshold` (one per consecutive difference `d`), first increment the
running `event_id` if the difference is below the threshold, then append the
current `event_id`. -/
def detectLoop (threshold : ℚ) : ℕ → List ℚ → List ℕ
  | _, [] => []
  | event_id, d :: rest =>
    let event_id2 := if d < threshold then event_id + 1 else event_id
    event_id2 :: detectLoop threshold event_id2 rest

/-- Embeds `detect_growth_events(areas, threshold)` from `bacteria.py`:
start with `events = [0]` and extend through `detectLoop` over
`np.diff(areas)`.  The Python default for `threshold` is `-350`. -/
def detect_growth_events (areas : List ℚ) (threshold : ℚ) : List ℕ :=
  0 :: detectLoop threshold 0 (diff areas)

/-- Minimum of a list of rationals, embedding Python `min(xs)` at the
call site in `normalize_times`, where the argument is always nonempty
Python `min` of an empty sequence raises, the default `0` is never used
by the code path. -/
def listMin : List ℚ → ℚ
  | [] => 0
  | a :: l => l.foldl min a

/-- Embeds the numpy boolean-mask selection `times[events == event]`:
the entries of `times` at the positions where the parallel list `events`
holds `e`, in input order. -/
def event_times (times : List ℚ) (events : List ℕ) (e : ℕ) : List ℚ :=
  (times.zip events).filterMap (fun p => if p.2 = e then some p.1 else none)

/-- Embeds `normalize_times(times, events)` from `bacteria.py`: for each
event id in `sorted(np.unique(events))`, append the times of that event
minus their minimum.  `Finset.sort` of `events.toFinset` is exactly the
sorted list of distinct values of `events`. -/
def normalize_times (times : List ℚ) (events : List ℕ) : List ℚ :=
  ((events.toFinset.sort (· ≤ ·)).map (fun e =>
    let ets := event_times times events e
    ets.map (fun t => t - listMin ets))).flatten

/-- Spec-side description (follows the spec's words, for comparison with
`event_times`): the times whose index is assigned to event `e`, i.e.
`times[i]` for each `i < len(events)` with `events[i] = e`, in index
order. -/
def specEventTimes (times : List ℚ) (events : List ℕ) (e : ℕ) : List ℚ :=
  (List.range events.length).filterMap
    (fun i => if events.getD i 0 = e then some (times.getD i 0) else none)

/-- Spec-side description of one normalized group: the times of event `e`
minus the minimum time within that event. -/
def specNormGroup (times : List ℚ) (events : List ℕ) (e : ℕ) : List ℚ :=
  (specEventTimes times events e).map
    (fun t => t - listMin (specEventTimes times events e))

/-- The property claimed for `detect_growth_events` on nonempty input:
same length as the input, event ids start at `0`, step by exactly `1` at
position `i+1` precisely when `areas[i+1] - areas[i] < threshold` (else
stay constant), the output is monotonically non-decreasing, and when no
consecutive difference is below the threshold the output is constant
zero of the input's length. -/
def DetectGrowthSpec (areas : List ℚ) (threshold : ℚ) : Prop :=
  (detect_growth_events areas threshold).length = areas.length ∧
  (detect_growth_events areas threshold).getD 0 0 = 0 ∧
  (∀ i : ℕ, i + 1 < areas.length →
    (detect_growth_events areas threshold).getD (i + 1) 0
      = (detect_growth_events areas threshold).getD i 0
        + (if areas.getD (i + 1) 0 - areas.getD i 0 < threshold then 1 else 0)) ∧
  List.Chain' (· ≤ ·) (detect_growth_events areas threshold) ∧
  ((∀ i : ℕ, i + 1 < areas.length →
      ¬(areas.getD (i + 1) 0 - areas.getD i 0 < threshold)) →
    detect_growth_events areas threshold = List.replicate areas.length 0)

/-- The property claimed for `normalize_times` on parallel inputs: the
output is the concatenation, over the distinct event ids in strictly
ascending order, of the per-event normalized groups (each group being the
event's times in input order minus the event's minimum time); every output
value is nonnegative; and within each event's group the minimum normalized
time is exactly `0` and is attained. -/
def NormalizeSpec (times : List ℚ) (events : List ℕ) : Prop :=
  (∃ ids : List ℕ, List.Sorted (· < ·) ids ∧ (∀ e, e ∈ ids ↔ e ∈ events) ∧
    normalize_times times events
      = (ids.map (fun e => specNormGroup times events e)).flatten) ∧
  (∀ x ∈ normalize_times times events, 0 ≤ x) ∧
  (∀ e ∈ events, listMin (specNormGroup times events e) = 0 ∧
    (0 : ℚ) ∈ specNormGroup times events e)

/-! ## image.py -/

/-- A raster image as a list of rows (a numpy 2-d array). -/
abbrev Grid (α : Type) := List (List α)

/-- Pixel read with a default value for out-of-range indices. -/
def getAt {α : Type} (d : α) (g : Grid α) (i j : ℕ) : α :=
  (g.getD i []).getD j d

/-- Row-length profile of a grid (the shape of the array). -/
def rowLengths {α : Type} (g : Grid α) : List ℕ := g.map List.length

/-- Number of columns of a rectangular grid. -/
def ncols {α : Type} (g : Grid α) : ℕ := (g.headD []).length

/-- Reflect boundary indexing of scipy.ndimage filters (their default
mode, `(d c b a | a b c d | d c b a)`): index `-1` maps to `0`, index `n`
maps to `n - 1`, periodically with period `2 n`. -/
def reflectIdx (n : ℕ) (i : ℤ) : ℕ :=
  if n = 0 then 0
  else
    let m := (i % (2 * n)).toNat
    if m < n then m else 2 * n - 1 - m

/-- Pixel read at integer coordinates with scipy reflect boundary. -/
def getReflect (g : Grid ℚ) (i j : ℤ) : ℚ :=
  getAt 0 g (reflectIdx g.length i) (reflectIdx (ncols g) j)

/-- The offsets of the 3×3 square structuring element
`skimage.morphology.square(3)` used as the filter footprint. -/
def offsets3 : List (ℤ × ℤ) :=
  [(-1, -1), (-1, 0), (-1, 1), (0, -1), (0, 0), (0, 1), (1, -1), (1, 0), (1, 1)]

/-- The 3×3 neighborhood of pixel `(i, j)` with reflect boundary. -/
def neighborhood (im : Grid ℚ) (i j : ℕ) : List ℚ :=
  offsets3.map (fun d => getReflect im ((i : ℤ) + d.1) ((j : ℤ) + d.2))

/-- Maximum of a list of rationals (the default `0` is unused on the code
path, where the list is a 9-element neighborhood). -/
def listMax : List ℚ → ℚ
  | [] => 0
  | a :: l => l.foldl max a

/-- Build a grid with the same row-length profile as `g` whose `(i, j)`
entry is `f i j`. -/
def gridMapIdx {α β : Type} (g : Grid α) (f : ℕ → ℕ → β) : Grid β :=
  (List.range g.length).map (fun i =>
    (List.range ((g.getD i []).length)).map (fun j => f i j))

/-- Embeds `scipy.ndimage.filters.maximum_filter(im, footprint=square(3))`:
each pixel becomes the maximum of its 3×3 neighborhood (reflect
boundary). -/
def maximum_filter (im : Grid ℚ) : Grid ℚ :=
  gridMapIdx im (fun i j => listMax (neighborhood im i j))

/-- Embeds `scipy.ndimage.filters.minimum_filter(im, footprint=square(3))`. -/
def minimum_filter (im : Grid ℚ) : Grid ℚ :=
  gridMapIdx im (fun i j => listMin (neighborhood im i j))

/-- Embeds `zero_crossing_filter(im, threshold)` from `image.py`.  The
Sobel gradient `skimage.filters.sobel` is an external collaborator and is
passed as the function parameter `sobel`.  The pixelwise formula is the
source's
`((im >= 0) & (im_min < 0) | (im <= 0) & (im_max > 0)) & (im_grad >= threshold)`. -/
def zero_crossing_filter (sobel : Grid ℚ → Grid ℚ) (im : Grid ℚ)
    (threshold : ℚ) : Grid Bool :=
  let im_max := maximum_filter im
  let im_min := minimum_filter im
  let im_grad := sobel im
  gridMapIdx im (fun i j =>
    ((decide (0 ≤ getAt 0 im i j) && decide (getAt 0 im_min i j < 0))
      || (decide (getAt 0 im i j ≤ 0) && decide (0 < getAt 0 im_max i j)))
    && decide (threshold ≤ getAt 0 im_grad i j))

/-- The non-background positions of a binary grid, in raster order. -/
def fgPositions (bg : Bool) (g : Grid Bool) : List (ℕ × ℕ) :=
  ((List.range g.length).map (fun i =>
    (List.range ((g.getD i []).length)).filterMap (fun j =>
      if (g.getD i []).getD j bg ≠ bg then some (i, j) else none))).flatten

/-- 8-neighborhood adjacency of two distinct pixels (the default
2-connectivity of `skimage.measure.label` for 2-d input). -/
def adj8 (p q : ℕ × ℕ) : Bool :=
  decide (p ≠ q) && decide (p.1 ≤ q.1 + 1) && decide (q.1 ≤ p.1 + 1)
    && decide (p.2 ≤ q.2 + 1) && decide (q.2 ≤ p.2 + 1)

/-- One breadth step of component exploration: add every foreground pixel
adjacent to the current set. -/
def expandComp (fg : List (ℕ × ℕ)) (s : List (ℕ × ℕ)) : List (ℕ × ℕ) :=
  s ++ fg.filter (fun q => decide (q ∉ s) && s.any (fun p => adj8 p q))

/-- Pixels reachable from `p` through foreground pixels in at most `n`
breadth steps. -/
def reachComp (fg : List (ℕ × ℕ)) : ℕ → (ℕ × ℕ) → List (ℕ × ℕ)
  | 0, p => [p]
  | n + 1, p => expandComp fg (reachComp fg n p)

/-- Whether `q` lies in the same connected component as `p` (fuel
`fg.length` suffices to exhaust any component). -/
def sameComp (fg : List (ℕ × ℕ)) (p q : ℕ × ℕ) : Bool :=
  decide (q ∈ reachComp fg fg.length p)

/-- One representative (the raster-first pixel) per connected component of
the foreground, in raster order. -/
def compReps (fg : List (ℕ × ℕ)) : List (ℕ × ℕ) :=
  fg.foldl (fun acc p => if acc.any (fun r => sameComp fg r p) then acc
    else acc ++ [p]) []

/-- Embeds `skimage.measure.label(g, background=bg, return_num=True)` for a
binary image, per the skimage documentation: connected regions (default
2-connectivity, i.e. 8-neighborhoods) of non-background pixels get the
labels `1, 2, ...` in raster order of their first pixel, background pixels
get the label `0`, and the returned number of labels equals the maximum
label index — the number of object regions, with the background label NOT
counted. -/
def labelGrid (bg : Bool) (g : Grid Bool) : Grid ℕ × ℕ :=
  let fg := fgPositions bg g
  let rs := compReps fg
  (gridMapIdx g (fun i j =>
    if (g.getD i []).getD j bg ≠ bg then
      match rs.findIdx? (fun r => sameComp fg r (i, j)) with
      | some k => k + 1
      | none => 0
    else 0),
   rs.length)

/-- Embeds `laplacian_of_gaussian_segmentation` from `image.py`.  The
external skimage/scipy steps whose internals no claim depends on
(`scipy.ndimage.filters.gaussian_laplace`, the Sobel gradient inside
`zero_crossing_filter`, `skimage.morphology.skeletonize`,
`scipy.ndimage.morphology.binary_fill_holes`,
`skimage.morphology.remove_small_objects`,
`skimage.segmentation.clear_border`) are passed as function parameters;
the final `skimage.measure.label(im_bw, background=background,
return_num=True)` is `labelGrid`.  Python defaults: `sigma=0.5`,
`threshold=0.001`, `min_size=500`, `buffer_size=5`, `background=0`. -/
def laplacian_of_gaussian_segmentation
    (gaussian_laplace : ℚ → Grid ℚ → Grid ℚ) (sobel : Grid ℚ → Grid ℚ)
    (skeletonize : Grid Bool → Grid Bool)
    (binary_fill_holes : Grid Bool → Grid Bool)
    (remove_small_objects : ℕ → Grid Bool → Grid Bool)
    (clear_border : ℕ → Grid Bool → Grid Bool)
    (im : Grid ℚ) (sigma : ℚ) (threshold : ℚ) (min_size : ℕ)
    (buffer_size : ℕ) (background : Bool) : Grid ℕ × ℕ :=
  let im_LoG := gaussian_laplace sigma im
  let im_edge := zero_crossing_filter sobel im_LoG threshold
  let im_edge2 := skeletonize im_edge
  let im_bw := binary_fill_holes im_edge2
  let im_bw2 := remove_small_objects min_size im_bw
  let im_bw3 := clear_border buffer_size im_bw2
  labelGrid background im_bw3

/-! ## model.py -/

/-- Embeds `linear_growth_model(a_0, k, t)` from `model.py`:
`a_0 * (1 + k * t)`. -/
noncomputable def linear_growth_model (a_0 k t : ℝ) : ℝ := a_0 * (1 + k * t)

/-- Embeds `exponential_growth_model(a_0, k, t)` from `model.py`:
`a_0 * exp(k * t)`. -/
noncomputable def exponential_growth_model (a_0 k t : ℝ) : ℝ :=
  a_0 * Real.exp (k * t)

namespace model_py

/-- Embeds `residual(params, times, areas, model)` from `model.py`:
`areas - model(*params, times)` elementwise.  The parameter vector of
`growth_area_mle_lstq` is two-dimensional (as fixed by the defaults
`initial_params=[1, 0]` and `bounds=([0, 0], [inf, inf])`), so `params` is
a pair and the model takes `(a_0, k, t)`.  (The name `residual` clashes
with a Mathlib root name, hence the namespace.) -/
noncomputable def residual (params : ℝ × ℝ) (times areas : List ℝ)
    (model : ℝ → ℝ → ℝ → ℝ) : List ℝ :=
  List.zipWith (fun area t => area - model params.1 params.2 t) areas times

end model_py

/-- Embeds `growth_area_mle_lstq(data, model, initial_params, bounds)` from
`model.py`.  The external bounded solver `scipy.optimize.least_squares` is
passed as the function parameter `least_squares`, receiving the residual
function, the initial guess and the bounds and returning the point
estimate `res.x`.  The code then computes `rss_mle = sum(r(res.x)**2)`,
`sigma_mle = sqrt(rss_mle / len(times))` and returns
`tuple([x for x in res.x] + [sigma_mle])`. -/
noncomputable def growth_area_mle_lstq
    (least_squares : ((ℝ × ℝ) → List ℝ) → (ℝ × ℝ) → ((ℝ × ℝ) × (ℝ × ℝ)) → ℝ × ℝ)
    (data : List (ℝ × ℝ)) (model : ℝ → ℝ → ℝ → ℝ)
    (initial_params : ℝ × ℝ) (bounds : (ℝ × ℝ) × (ℝ × ℝ)) : List ℝ :=
  let times := data.map Prod.fst
  let areas := data.map Prod.snd
  let r := fun x => model_py.residual x times areas model
  let res_x := least_squares r initial_params bounds
  let rss_mle := ((r res_x).map (fun v => v ^ 2)).sum
  let sigma_mle := Real.sqrt (rss_mle / times.length)
  [res_x.1, res_x.2, sigma_mle]

/-- The density of the Normal distribution with mean `mu` and standard
deviation `sigma`, evaluated at `x`. -/
noncomputable def normalPdf (x mu sigma : ℝ) : ℝ :=
  Real.exp (-(((x - mu) / sigma) ^ 2) / 2) / (sigma * Real.sqrt (2 * Real.pi))

/-- Embeds `scipy.stats.norm.logpdf(x, mu, sigma)` by its closed form:
`-((x - mu) / sigma)^2 / 2 - log(sigma) - log(sqrt(2 pi))`. -/
noncomputable def norm_logpdf (x mu sigma : ℝ) : ℝ :=
  -(((x - mu) / sigma) ^ 2) / 2 - Real.log sigma
    - Real.log (Real.sqrt (2 * Real.pi))

/-- Embeds `log_likelihood(params, model, times, areas)` from `model.py`.
The Python line `a_0, k, sigma = params` destructures the parameter tuple
and raises before any computation unless it has exactly three elements;
this fallible step is embedded with `Option`, `none` being the raised
error.  On success the result is
`np.sum(st.norm.logpdf(areas, model(a_0, k, times), sigma))`. -/
noncomputable def log_likelihood (params : List ℝ) (model : ℝ → ℝ → ℝ → ℝ)
    (times areas : List ℝ) : Option ℝ :=
  match params with
  | [a_0, k, sigma] =>
    some ((List.zipWith (fun area t => norm_logpdf area (model a_0 k t) sigma)
      areas times).sum)
  | _ => none

/-- Embeds `compute_AIC(params, model, times, areas)` from `model.py`:
`-2 * (log_likelihood(params, model, times, areas) - len(params))`,
failing exactly when `log_likelihood` fails. -/
noncomputable def compute_AIC (params : List ℝ) (model : ℝ → ℝ → ℝ → ℝ)
    (times areas : List ℝ) : Option ℝ :=
  (log_likelihood params model times areas).map
    (fun ll => -2 * (ll - (params.length : ℝ)))

/-! ## Theorems about bacteria.py -/

theorem diff_length : ∀ l : List ℚ, (diff l).length = l.length - 1
  | [] => rfl
  | [_] => rfl
  | a :: b :: rest => by
    have := diff_length (b :: rest)
    simp [diff] at this ⊢
    omega

theorem diff_getD : ∀ (l : List ℚ) (i : ℕ), i + 1 < l.length →
    (diff l).getD i 0 = l.getD (i + 1) 0 - l.getD i 0
  | [], i, h => by simp at h
  | [a], i, h => by simp at h
  | a :: b :: rest, 0, _ => by simp [diff]
  | a :: b :: rest, i + 1, h => by
    have := diff_getD (b :: rest) i (by simpa using h)
    simpa [diff] using this

theorem detectLoop_length (threshold : ℚ) :
    ∀ (e : ℕ) (ds : List ℚ), (detectLoop threshold e ds).length = ds.length := by
  intro e ds
  induction ds generalizing e with
  | nil => rfl
  | cons d rest ih => simp [detectLoop, ih]

theorem detectLoop_step (threshold : ℚ) :
    ∀ (ds : List ℚ) (e i : ℕ), i < ds.length →
      (e :: detectLoop threshold e ds).getD (i + 1) 0
        = (e :: detectLoop threshold e ds).getD i 0
          + (if ds.getD i 0 < threshold then 1 else 0) := by
  intro ds
  induction ds with
  | nil => intro e i h; simp at h
  | cons d rest ih =>
    intro e i h
    match i with
    | 0 =>
      simp only [detectLoop, List.getD_cons_succ, List.getD_cons_zero]
      split <;> omega
    | i + 1 =>
      have := ih (if d < threshold then e + 1 else e) i (by simpa using h)
      simpa [detectLoop] using this

theorem detectLoop_chain (threshold : ℚ) :
    ∀ (ds : List ℚ) (e : ℕ), List.Chain' (· ≤ ·) (e :: detectLoop threshold e ds) := by
  intro ds
  induction ds with
  | nil => intro e; simp [detectLoop]
  | cons d rest ih =>
    intro e
    simp only [detectLoop]
    refine List.chain'_cons.2 ⟨?_, ih _⟩
    split <;> omega

theorem detectLoop_const (threshold : ℚ) :
    ∀ (ds : List ℚ) (e : ℕ), (∀ d ∈ ds, ¬ d < threshold) →
      detectLoop threshold e ds = List.replicate ds.length e := by
  intro ds
  induction ds with
  | nil => intro e _; rfl
  | cons d rest ih =>
    intro e h
    have hd : ¬ d < threshold := h d (by simp)
    simp only [detectLoop, if_neg hd, List.length_cons, List.replicate_succ]
    exact congrArg _ (ih e (fun x hx => h x (by simp [hx])))

/-- Claim C1: for every nonempty area list and every threshold, the output
of `detect_growth_events` has the input's length, starts at `0`, increments
by exactly `1` at position `i+1` exactly when
`areas[i+1] - areas[i] < threshold` (staying constant otherwise), is
monotonically non-decreasing, and is constant zero of the input's length
when no consecutive difference is below the threshold. -/
theorem detect_growth_events_spec (areas : List ℚ) (threshold : ℚ)
    (h : areas ≠ []) : DetectGrowthSpec areas threshold := by
  have hlen : areas.length ≠ 0 := fun hc => h (List.length_eq_zero.mp hc)
  refine ⟨?_, rfl, ?_, ?_, ?_⟩
  · simp only [detect_growth_events, List.length_cons,
      detectLoop_length, diff_length]
    omega
  · intro i hi
    have hi2 : i < (diff areas).length := by rw [diff_length]; omega
    have := detectLoop_step threshold (diff areas) 0 i hi2
    rw [detect_growth_events, this, diff_getD areas i hi]
  · exact detectLoop_chain threshold (diff areas) 0
  · intro hno
    have hmem : ∀ d ∈ diff areas, ¬ d < threshold := by
      intro d hd
      obtain ⟨n, hn⟩ := List.mem_iff_get.mp hd
      have hb : (n : ℕ) + 1 < areas.length := by
        have h2 := n.isLt
        have h3 := diff_length areas
        omega
      have : (diff areas).getD (n : ℕ) 0 = d := by
        rw [List.getD_eq_getElem?_getD, List.getElem?_eq_getElem n.isLt]
        simpa using congrArg some hn
      rw [← this, diff_getD areas (n : ℕ) hb]
      exact hno (n : ℕ) hb
    rw [detect_growth_events, detectLoop_const threshold (diff areas) 0 hmem,
      diff_length]
    conv_rhs => rw [show areas.length = (areas.length - 1) + 1 from by omega,
      List.replicate_succ]

/-- Witness for C1 at the concrete input `areas = [0, 1]`,
`threshold = -350`. -/
theorem detect_growth_events_spec_witness :
    (([(0 : ℚ), 1] : List ℚ) ≠ []) ∧ DetectGrowthSpec [(0 : ℚ), 1] (-350) :=
  ⟨by simp, detect_growth_events_spec [(0 : ℚ), 1] (-350) (by simp)⟩

/-- Claim C2: on `areas = [100, 105, 40, 45, 50]` the function returns
`[0, 0, 0, 0, 0]` for `threshold = -350` (no difference is below `-350`)
and `[0, 0, 1, 1, 1]` for `threshold = -50` (only `40 - 105 = -65` is
below `-50`). -/
theorem detect_growth_events_concrete :
    detect_growth_events [100, 105, 40, 45, 50] (-350) = [0, 0, 0, 0, 0] ∧
    detect_growth_events [100, 105, 40, 45, 50] (-50) = [0, 0, 1, 1, 1] := by
  norm_num [detect_growth_events, diff, detectLoop]

/-- Counterexample to claim C8 as stated: on the empty input the code
returns `[0]` (because `np.diff` of an empty list is empty), so the output
length is `1`, not the input length `0`. -/
theorem detect_growth_events_empty_counterexample :
    (detect_growth_events ([] : List ℚ) (-350)).length ≠
      ([] : List ℚ).length := by
  simp [detect_growth_events, diff, detectLoop]

/-- Claim C8 (amended): `detect_growth_events` always returns without
error a list of length `max areas.length 1` — the input length for
nonempty input, but length `1` for empty input — and on inputs with at
most one element the result is exactly `[0]`, containing no event
transitions. -/
theorem detect_growth_events_length (areas : List ℚ) (threshold : ℚ) :
    (detect_growth_events areas threshold).length = max areas.length 1 ∧
    (areas.length ≤ 1 → detect_growth_events areas threshold = [0]) := by
  constructor
  · simp only [detect_growth_events, List.length_cons, detectLoop_length,
      diff_length]
    omega
  · intro h
    match areas, h with
    | [], _ => rfl
    | [a], _ => rfl

/-- Witness for the amended C8 at the concrete one-element input
`areas = [5]`. -/
theorem detect_growth_events_length_witness :
    ([(5 : ℚ)] : List ℚ).length ≤ 1 ∧
    detect_growth_events [(5 : ℚ)] (-350) = [0] ∧
    (detect_growth_events [(5 : ℚ)] (-350)).length = max [(5 : ℚ)].length 1 :=
  ⟨by simp, (detect_growth_events_length [(5 : ℚ)] (-350)).2 (by simp),
    (detect_growth_events_length [(5 : ℚ)] (-350)).1⟩

theorem event_times_eq : ∀ (times : List ℚ) (events : List ℕ),
    times.length = events.length → ∀ e : ℕ,
    event_times times events e = specEventTimes times events e
  | _, [], _, e => by simp [event_times, specEventTimes]
  | [], _ :: _, h, _ => by simp at h
  | t :: ts, ev :: evs, h, e => by
    have ih := event_times_eq ts evs (by simpa using h) e
    by_cases hev : ev = e <;>
      simp only [event_times, specEventTimes, List.zip_cons_cons,
        List.filterMap_cons, List.length_cons, List.range_succ_eq_map,
        List.filterMap_map, Function.comp_def, List.getD_cons_succ,
        List.getD_cons_zero, hev, if_pos, if_neg, ite_true, ite_false,
        reduceIte] at ih ⊢ <;>
      simp [hev, ih]

theorem event_times_length : ∀ (times : List ℚ) (events : List ℕ),
    times.length = events.length → ∀ e : ℕ,
    (event_times times events e).length = events.count e
  | _, [], _, e => by simp [event_times]
  | [], _ :: _, h, _ => by simp at h
  | t :: ts, ev :: evs, h, e => by
    have ih := event_times_length ts evs (by simpa using h) e
    by_cases hev : ev = e <;>
      simp [event_times, List.filterMap_cons, List.count_cons, hev, ih] at ih ⊢

theorem event_times_ne_nil : ∀ (times : List ℚ) (events : List ℕ),
    times.length = events.length → ∀ e ∈ events, event_times times events e ≠ []
  | _, [], _ => by simp
  | [], _ :: _, h => by simp at h
  | t :: ts, ev :: evs, h => by
    intro e he
    by_cases hev : ev = e
    · simp [event_times, List.filterMap_cons, hev]
    · have h1 : e ∈ evs := by
        rcases List.mem_cons.mp he with h2 | h2
        · exact absurd h2.symm hev
        · exact h2
      have := event_times_ne_nil ts evs (by simpa using h) e h1
      simpa [event_times, List.filterMap_cons, hev] using this

theorem foldl_min_le_init (l : List ℚ) : ∀ a : ℚ, l.foldl min a ≤ a := by
  induction l with
  | nil => intro a; simp
  | cons b l ih => intro a; exact le_trans (ih (min a b)) (min_le_left a b)

theorem foldl_min_le_mem (l : List ℚ) : ∀ (a x : ℚ), x ∈ l → l.foldl min a ≤ x := by
  induction l with
  | nil => intro a x hx; simp at hx
  | cons b l ih =>
    intro a x hx
    rcases List.mem_cons.mp hx with h | h
    · rw [h, List.foldl_cons]
      exact le_trans (foldl_min_le_init l (min a b)) (min_le_right a b)
    · exact ih (min a b) x h

theorem foldl_min_mem (l : List ℚ) : ∀ a : ℚ, l.foldl min a = a ∨ l.foldl min a ∈ l := by
  induction l with
  | nil => intro a; simp
  | cons b l ih =>
    intro a
    rw [List.foldl_cons]
    rcases ih (min a b) with h | h
    · rcases min_choice a b with hm | hm
      · left; rw [h, hm]
      · right; rw [h, hm]; simp
    · right; exact List.mem_cons_of_mem b h

theorem listMin_le (l : List ℚ) (x : ℚ) (hx : x ∈ l) : listMin l ≤ x := by
  match l with
  | a :: l2 =>
    rcases List.mem_cons.mp hx with h | h
    · rw [h] at hx ⊢; exact foldl_min_le_init l2 a
    · exact foldl_min_le_mem l2 a x h

theorem listMin_mem (l : List ℚ) (h : l ≠ []) : listMin l ∈ l := by
  match l with
  | a :: l2 =>
    rcases foldl_min_mem l2 a with h2 | h2
    · simp [listMin, h2]
    · simp [listMin, List.mem_cons_of_mem a h2]

theorem foldl_min_map_sub (c : ℚ) (l : List ℚ) : ∀ a : ℚ,
    (l.map (fun t => t - c)).foldl min (a - c) = l.foldl min a - c := by
  induction l with
  | nil => intro a; simp
  | cons b l ih =>
    intro a
    simp only [List.map_cons, List.foldl_cons, min_sub_sub_right]
    exact ih (min a b)

theorem listMin_map_sub (c : ℚ) (l : List ℚ) (h : l ≠ []) :
    listMin (l.map (fun t => t - c)) = listMin l - c := by
  match l with
  | a :: l2 =>
    simp only [listMin, List.map_cons]
    exact foldl_min_map_sub c l2 a

/-- Claim C3: for parallel `times` and `events` of equal length,
`normalize_times` returns, for each distinct event id taken in strictly
ascending order, the times of that event minus the event's minimum time,
concatenated in event-id order; every output value is nonnegative, and
within each event the minimum normalized time is exactly `0` (and is
attained). -/
theorem normalize_times_spec (times : List ℚ) (events : List ℕ)
    (h : times.length = events.length) : NormalizeSpec times events := by
  have hgroup : ∀ e : ℕ, event_times times events e = specEventTimes times events e :=
    event_times_eq times events h
  refine ⟨⟨events.toFinset.sort (· ≤ ·), Finset.sort_sorted_lt _, ?_, ?_⟩, ?_, ?_⟩
  · intro e; rw [Finset.mem_sort, List.mem_toFinset]
  · simp only [normalize_times, specNormGroup]
    congr 1
    refine List.map_congr_left ?_
    intro e _
    rw [hgroup e]
  · intro x hx
    simp only [normalize_times] at hx
    rw [List.mem_flatten] at hx
    obtain ⟨grp, hgrp, hxg⟩ := hx
    rw [List.mem_map] at hgrp
    obtain ⟨e, _, rfl⟩ := hgrp
    rw [List.mem_map] at hxg
    obtain ⟨t, ht, rfl⟩ := hxg
    have := listMin_le (event_times times events e) t ht
    linarith
  · intro e he
    have hne : event_times times events e ≠ [] :=
      event_times_ne_nil times events h e he
    constructor
    · rw [specNormGroup, ← hgroup e, listMin_map_sub _ _ hne, sub_self]
    · rw [specNormGroup, ← hgroup e]
      exact List.mem_map.mpr
        ⟨listMin (event_times times events e), listMin_mem _ hne, sub_self _⟩

/-- Witness for C3 at the concrete input `times = [3, 1, 2]`,
`events = [1, 0, 1]`. -/
theorem normalize_times_spec_witness :
    ([(3 : ℚ), 1, 2] : List ℚ).length = ([1, 0, 1] : List ℕ).length ∧
    NormalizeSpec [(3 : ℚ), 1, 2] [1, 0, 1] :=
  ⟨by simp, normalize_times_spec [(3 : ℚ), 1, 2] [1, 0, 1] (by simp)⟩

/-- Claim C9: for parallel `times` and `events` of equal length, the
output of `normalize_times` has the same length as `times` — each input
sample lands in exactly one event group. -/
theorem normalize_times_length (times : List ℚ) (events : List ℕ)
    (h : times.length = events.length) :
    (normalize_times times events).length = times.length := by
  simp only [normalize_times]
  rw [List.length_flatten, List.map_map]
  have hmap : ((events.toFinset.sort (· ≤ ·)).map
        (List.length ∘ fun e =>
          (event_times times events e).map
            (fun t => t - listMin (event_times times events e))))
      = (events.toFinset.sort (· ≤ ·)).map (fun e => events.count e) := by
    refine List.map_congr_left ?_
    intro e _
    simp [event_times_length times events h e]
  rw [hmap]
  have h1 : events.dedup.toFinset.toList.Perm events.dedup :=
    List.toFinset_toList events.nodup_dedup
  have h0 : events.dedup.toFinset = events.toFinset := by ext a; simp
  rw [h0] at h1
  have hperm := (Finset.sort_perm_toList (· ≤ ·) events.toFinset).trans h1
  rw [(hperm.map (fun e => events.count e)).sum_eq,
    events.sum_map_count_dedup_eq_length, h]

/-- Witness for C9 at the concrete input `times = [3, 1, 2]`,
`events = [0, 1, 0]`. -/
theorem normalize_times_length_witness :
    ([(3 : ℚ), 1, 2] : List ℚ).length = ([0, 1, 0] : List ℕ).length ∧
    (normalize_times [(3 : ℚ), 1, 2] [0, 1, 0]).length
      = ([(3 : ℚ), 1, 2] : List ℚ).length :=
  ⟨by simp, normalize_times_length [(3 : ℚ), 1, 2] [0, 1, 0] (by simp)⟩

/-! ## Theorems about image.py -/

theorem getAt_gridMapIdx {α β : Type} (d : β) (g : Grid α) (f : ℕ → ℕ → β)
    (i j : ℕ) (hi : i < g.length) (hj : j < (g.getD i []).length) :
    getAt d (gridMapIdx g f) i j = f i j := by
  have h1 : (gridMapIdx g f).getD i []
      = (List.range ((g.getD i []).length)).map (fun j => f i j) := by
    rw [gridMapIdx, List.getD_eq_getElem?_getD, List.getElem?_map,
      List.getElem?_range hi]
    rfl
  rw [getAt, h1, List.getD_eq_getElem?_getD, List.getElem?_map,
    List.getElem?_range hj]
  rfl

theorem rowLengths_gridMapIdx {α β : Type} (g : Grid α) (f : ℕ → ℕ → β) :
    rowLengths (gridMapIdx g f) = rowLengths g := by
  apply List.ext_getElem
  · simp [rowLengths, gridMapIdx]
  · intro i h1 h2
    simp only [rowLengths, gridMapIdx, List.getElem_map, List.getElem_range,
      List.length_map, List.length_range] at h1 ⊢
    rw [List.getD_eq_getElem?_getD, List.getElem?_eq_getElem h1]
    rfl

theorem neighborhood_ne_nil (im : Grid ℚ) (i j : ℕ) :
    neighborhood im i j ≠ [] := by
  simp [neighborhood, offsets3]

theorem foldl_min_lt_iff (c : ℚ) (l : List ℚ) : ∀ a : ℚ,
    l.foldl min a < c ↔ a < c ∨ ∃ x ∈ l, x < c := by
  induction l with
  | nil => intro a; simp
  | cons b l ih =>
    intro a
    rw [List.foldl_cons, ih (min a b), min_lt_iff]
    constructor
    · rintro (h | h)
      · rcases h with h | h
        · exact Or.inl h
        · exact Or.inr ⟨b, by simp, h⟩
      · obtain ⟨x, hx, hxc⟩ := h
        exact Or.inr ⟨x, by simp [hx], hxc⟩
    · rintro (h | ⟨x, hx, hxc⟩)
      · exact Or.inl (Or.inl h)
      · rcases List.mem_cons.mp hx with h1 | h1
        · exact Or.inl (Or.inr (h1 ▸ hxc))
        · exact Or.inr ⟨x, h1, hxc⟩

theorem listMin_lt_iff (l : List ℚ) (h : l ≠ []) (c : ℚ) :
    listMin l < c ↔ ∃ x ∈ l, x < c := by
  match l with
  | a :: l2 =>
    rw [listMin, foldl_min_lt_iff]
    constructor
    · rintro (h1 | ⟨x, hx, hxc⟩)
      · exact ⟨a, by simp, h1⟩
      · exact ⟨x, by simp [hx], hxc⟩
    · rintro ⟨x, hx, hxc⟩
      rcases List.mem_cons.mp hx with h1 | h1
      · exact Or.inl (h1 ▸ hxc)
      · exact Or.inr ⟨x, h1, hxc⟩

theorem foldl_max_gt_iff (c : ℚ) (l : List ℚ) : ∀ a : ℚ,
    c < l.foldl max a ↔ c < a ∨ ∃ x ∈ l, c < x := by
  induction l with
  | nil => intro a; simp
  | cons b l ih =>
    intro a
    rw [List.foldl_cons, ih (max a b), lt_max_iff]
    constructor
    · rintro (h | h)
      · rcases h with h | h
        · exact Or.inl h
        · exact Or.inr ⟨b, by simp, h⟩
      · obtain ⟨x, hx, hxc⟩ := h
        exact Or.inr ⟨x, by simp [hx], hxc⟩
    · rintro (h | ⟨x, hx, hxc⟩)
      · exact Or.inl (Or.inl h)
      · rcases List.mem_cons.mp hx with h1 | h1
        · exact Or.inl (Or.inr (h1 ▸ hxc))
        · exact Or.inr ⟨x, h1, hxc⟩

theorem lt_listMax_iff (l : List ℚ) (h : l ≠ []) (c : ℚ) :
    c < listMax l ↔ ∃ x ∈ l, c < x := by
  match l with
  | a :: l2 =>
    rw [listMax, foldl_max_gt_iff]
    constructor
    · rintro (h1 | ⟨x, hx, hxc⟩)
      · exact ⟨a, by simp, h1⟩
      · exact ⟨x, by simp [hx], hxc⟩
    · rintro ⟨x, hx, hxc⟩
      rcases List.mem_cons.mp hx with h1 | h1
      · exact Or.inl (h1 ▸ hxc)
      · exact Or.inr ⟨x, h1, hxc⟩

/-- Claim C7 (amended): `zero_crossing_filter` returns a boolean mask with
the shape of the input in which pixel `(i, j)` is `true` exactly when
either the pixel's value is `≥ 0` and its 3×3 neighborhood contains a
strictly negative value, or the pixel's value is `≤ 0` and its 3×3
neighborhood contains a strictly positive value, and in addition the
gradient (Sobel operator, passed as the parameter `sobel`) at that pixel
is at least `threshold`.  (The unamended wording — the neighborhood
contains both a non-negative and a negative value — differs: see the
counterexample.) -/
theorem zero_crossing_filter_spec (sobel : Grid ℚ → Grid ℚ) (im : Grid ℚ)
    (threshold : ℚ) :
    rowLengths (zero_crossing_filter sobel im threshold) = rowLengths im ∧
    ∀ i j : ℕ, i < im.length → j < (im.getD i []).length →
      (getAt false (zero_crossing_filter sobel im threshold) i j = true ↔
        (((0 ≤ getAt 0 im i j ∧ ∃ x ∈ neighborhood im i j, x < 0)
          ∨ (getAt 0 im i j ≤ 0 ∧ ∃ x ∈ neighborhood im i j, 0 < x))
         ∧ threshold ≤ getAt 0 (sobel im) i j)) := by
  constructor
  · exact rowLengths_gridMapIdx im _
  · intro i j hi hj
    simp only [zero_crossing_filter]
    rw [getAt_gridMapIdx _ _ _ _ _ hi hj]
    have hmin : getAt 0 (minimum_filter im) i j = listMin (neighborhood im i j) := by
      rw [minimum_filter, getAt_gridMapIdx _ _ _ _ _ hi hj]
    have hmax : getAt 0 (maximum_filter im) i j = listMax (neighborhood im i j) := by
      rw [maximum_filter, getAt_gridMapIdx _ _ _ _ _ hi hj]
    simp only [Bool.and_eq_true, Bool.or_eq_true, decide_eq_true_eq,
      hmin, hmax, listMin_lt_iff _ (neighborhood_ne_nil im i j),
      lt_listMax_iff _ (neighborhood_ne_nil im i j)]

/-- Witness for the amended C7 at the concrete input `im = [[1]]`, the
identity as the gradient operator, `threshold = 0`, pixel `(0, 0)`. -/
theorem zero_crossing_filter_spec_witness :
    (0 < ([[(1 : ℚ)]] : Grid ℚ).length) ∧
    (0 < (([[(1 : ℚ)]] : Grid ℚ).getD 0 []).length) ∧
    (rowLengths (zero_crossing_filter (fun g => g) [[(1 : ℚ)]] 0)
      = rowLengths ([[(1 : ℚ)]] : Grid ℚ)) ∧
    (getAt false (zero_crossing_filter (fun g => g) [[(1 : ℚ)]] 0) 0 0 = true ↔
      (((0 ≤ getAt 0 ([[(1 : ℚ)]] : Grid ℚ) 0 0
          ∧ ∃ x ∈ neighborhood [[(1 : ℚ)]] 0 0, x < 0)
        ∨ (getAt 0 ([[(1 : ℚ)]] : Grid ℚ) 0 0 ≤ 0
          ∧ ∃ x ∈ neighborhood [[(1 : ℚ)]] 0 0, 0 < x))
       ∧ 0 ≤ getAt 0 ((fun (g : Grid ℚ) => g) [[(1 : ℚ)]]) 0 0)) :=
  ⟨by simp, by simp,
    (zero_crossing_filter_spec (fun g => g) [[(1 : ℚ)]] 0).1,
    (zero_crossing_filter_spec (fun g => g) [[(1 : ℚ)]] 0).2 0 0
      (by simp) (by simp)⟩

/-- Counterexample to claim C7 as stated: on the image `[[0, 1], [0, 0]]`
with the gradient operator instantiated as the identity and threshold `0`,
the code marks pixel `(0, 0)` as `true` (its value is `≤ 0` and the 3×3
neighborhood maximum is `1 > 0`), although the 3×3 neighborhood contains
no negative value at all, so it does not contain "both non-negative and
negative values" and the claimed characterization is violated. -/
theorem zero_crossing_filter_counterexample :
    getAt false
      (zero_crossing_filter (fun g => g) [[0, 1], [0, 0]] 0) 0 0 = true ∧
    ¬ ((∃ x ∈ neighborhood ([[0, 1], [0, 0]] : Grid ℚ) 0 0, 0 ≤ x) ∧
       (∃ x ∈ neighborhood ([[0, 1], [0, 0]] : Grid ℚ) 0 0, x < 0) ∧
       (0 : ℚ) ≤ getAt 0 ((fun (g : Grid ℚ) => g) [[0, 1], [0, 0]]) 0 0) := by
  constructor
  · decide
  · decide

/-- Claim C6 (evaluation at the failing configuration): a run of
`laplacian_of_gaussian_segmentation` whose post-processing mask is
`[[true, true], [true, true]]` — exactly one surviving 8-connected object
region — returns the label map `[[1, 1], [1, 1]]` together with the label
count `1`, the number of object labels with background NOT counted,
whereas the claim (and the function's own docstring, "number of labels
(including background)") promises `2`.  The external pipeline stages are
instantiated so that the stage before labeling produces that mask. -/
theorem laplacian_of_gaussian_segmentation_label_count :
    laplacian_of_gaussian_segmentation (fun _ g => g) (fun g => g)
        (fun _ => [[true, true], [true, true]]) (fun b => b) (fun _ b => b)
        (fun _ b => b) [[0]] (1 / 2) (1 / 1000) 500 5 false
      = ([[1, 1], [1, 1]], 1) := by
  decide

/-! ## Theorems about model.py -/

theorem zipWith_sum_eq_range (f : ℝ → ℝ → ℝ) : ∀ (l1 l2 : List ℝ),
    l1.length = l2.length →
    (List.zipWith f l1 l2).sum
      = ∑ i ∈ Finset.range l1.length, f (l1.getD i 0) (l2.getD i 0)
  | [], _, _ => by simp
  | _ :: _, [], h => by simp at h
  | a :: l1, b :: l2, h => by
    rw [List.zipWith_cons_cons, List.sum_cons,
      zipWith_sum_eq_range f l1 l2 (by simpa using h), List.length_cons,
      Finset.sum_range_succ']
    simp only [List.getD_cons_succ, List.getD_cons_zero]
    exact add_comm _ _

theorem map_zipWith_eq {α β γ δ : Type} (g : γ → δ) (f : α → β → γ) :
    ∀ (l1 : List α) (l2 : List β),
    (List.zipWith f l1 l2).map g = List.zipWith (fun a b => g (f a b)) l1 l2
  | [], _ => by simp
  | _ :: _, [] => by simp
  | a :: l1, b :: l2 => by
    simp only [List.zipWith_cons_cons, List.map_cons]
    rw [map_zipWith_eq g f l1 l2]

theorem getD_map_of_lt {α β : Type} (f : α → β) (l : List α) (d : α) (d2 : β)
    (i : ℕ) (h : i < l.length) : (l.map f).getD i d2 = f (l.getD i d) := by
  rw [List.getD_eq_getElem?_getD, List.getElem?_map,
    List.getElem?_eq_getElem h, List.getD_eq_getElem?_getD,
    List.getElem?_eq_getElem h]
  rfl

/-- Claim C4: for every data array (with at least one row), model, initial
guess and bounds, and for the solver's point estimate `est` (the external
`scipy.optimize.least_squares` is the parameter `least_squares`),
`growth_area_mle_lstq` returns exactly the tuple
`(est.1, est.2, sigma_hat)` where `sigma_hat = sqrt(RSS / n)`, `RSS` is
the sum of the squared residuals `area_i - model(est, time_i)` at the
returned point estimates, and `n` is the number of observations. -/
theorem growth_area_mle_lstq_spec
    (least_squares :
      ((ℝ × ℝ) → List ℝ) → (ℝ × ℝ) → ((ℝ × ℝ) × (ℝ × ℝ)) → ℝ × ℝ)
    (data : List (ℝ × ℝ)) (model : ℝ → ℝ → ℝ → ℝ)
    (initial_params : ℝ × ℝ) (bounds : (ℝ × ℝ) × (ℝ × ℝ))
    (h : data ≠ []) :
    ∃ est : ℝ × ℝ,
      est = least_squares
          (fun x =>
            model_py.residual x (data.map Prod.fst) (data.map Prod.snd) model)
          initial_params bounds ∧
      growth_area_mle_lstq least_squares data model initial_params bounds
        = [est.1, est.2,
            Real.sqrt ((∑ i ∈ Finset.range data.length,
                ((data.getD i (0, 0)).2
                  - model est.1 est.2 (data.getD i (0, 0)).1) ^ 2)
              / (data.length : ℝ))] := by
  refine ⟨_, rfl, ?_⟩
  simp only [growth_area_mle_lstq]
  have hsq : ∀ est : ℝ × ℝ,
      ((model_py.residual est (data.map Prod.fst) (data.map Prod.snd)
        model).map (fun v => v ^ 2)).sum
      = ∑ i ∈ Finset.range data.length,
          ((data.getD i (0, 0)).2
            - model est.1 est.2 (data.getD i (0, 0)).1) ^ 2 := by
    intro est
    rw [model_py.residual, map_zipWith_eq,
      zipWith_sum_eq_range _ _ _ (by simp), List.length_map]
    refine Finset.sum_congr rfl ?_
    intro i hi
    rw [Finset.mem_range] at hi
    rw [getD_map_of_lt Prod.snd data (0, 0) 0 i hi,
      getD_map_of_lt Prod.fst data (0, 0) 0 i hi]
  rw [hsq, List.length_map]

/-- Witness for C4 at the concrete input `data = [(0, 1)]`, the linear
model, and a solver stub returning `(1, 0)`. -/
theorem growth_area_mle_lstq_spec_witness :
    (([((0 : ℝ), (1 : ℝ))] : List (ℝ × ℝ)) ≠ []) ∧
    ∃ est : ℝ × ℝ,
      est = (fun _ _ _ => ((1 : ℝ), (0 : ℝ)))
          (fun x => model_py.residual x
            (([((0 : ℝ), (1 : ℝ))] : List (ℝ × ℝ)).map Prod.fst)
            (([((0 : ℝ), (1 : ℝ))] : List (ℝ × ℝ)).map Prod.snd)
            linear_growth_model)
          ((1 : ℝ), (0 : ℝ)) (((0 : ℝ), (0 : ℝ)), ((0 : ℝ), (0 : ℝ))) ∧
      growth_area_mle_lstq (fun _ _ _ => ((1 : ℝ), (0 : ℝ)))
          [((0 : ℝ), (1 : ℝ))] linear_growth_model
          ((1 : ℝ), (0 : ℝ)) (((0 : ℝ), (0 : ℝ)), ((0 : ℝ), (0 : ℝ)))
        = [est.1, est.2,
            Real.sqrt ((∑ i ∈ Finset.range
                ([((0 : ℝ), (1 : ℝ))] : List (ℝ × ℝ)).length,
                ((([((0 : ℝ), (1 : ℝ))] : List (ℝ × ℝ)).getD i (0, 0)).2
                  - linear_growth_model est.1 est.2
                      ((([((0 : ℝ), (1 : ℝ))] : List (ℝ × ℝ)).getD i (0, 0)).1)) ^ 2)
              / (([((0 : ℝ), (1 : ℝ))] : List (ℝ × ℝ)).length : ℝ))] := by
  refine ⟨by simp, ?_⟩
  have := growth_area_mle_lstq_spec (fun _ _ _ => ((1 : ℝ), (0 : ℝ)))
    [((0 : ℝ), (1 : ℝ))] linear_growth_model ((1 : ℝ), (0 : ℝ))
    (((0 : ℝ), (0 : ℝ)), ((0 : ℝ), (0 : ℝ))) (by simp)
  exact this

theorem norm_logpdf_eq_log_normalPdf (x mu sigma : ℝ) (hs : 0 < sigma) :
    norm_logpdf x mu sigma = Real.log (normalPdf x mu sigma) := by
  have h1 : Real.sqrt (2 * Real.pi) ≠ 0 := by
    have := Real.pi_pos
    positivity
  have h2 : sigma ≠ 0 := ne_of_gt hs
  rw [normalPdf, Real.log_div (Real.exp_ne_zero _) (mul_ne_zero h2 h1),
    Real.log_exp, Real.log_mul h2 h1, norm_logpdf]
  ring

/-- Claim C5: for a three-element parameter tuple `(a_0, k, sigma)` with
`sigma > 0` and equal-length `times` and `areas`, `log_likelihood` is the
sum over the observations of the log of the Normal density of `areas[i]`
with mean `model(a_0, k, times[i])` and standard deviation `sigma`, and
`compute_AIC` is `-2 * (log_likelihood - 3)`, where `3` is the length of
the parameter tuple. -/
theorem log_likelihood_AIC_spec (a_0 k sigma : ℝ) (model : ℝ → ℝ → ℝ → ℝ)
    (times areas : List ℝ) (hs : 0 < sigma)
    (hlen : times.length = areas.length) :
    log_likelihood [a_0, k, sigma] model times areas
      = some (∑ i ∈ Finset.range times.length,
          Real.log (normalPdf (areas.getD i 0)
            (model a_0 k (times.getD i 0)) sigma)) ∧
    compute_AIC [a_0, k, sigma] model times areas
      = some (-2 * ((∑ i ∈ Finset.range times.length,
          Real.log (normalPdf (areas.getD i 0)
            (model a_0 k (times.getD i 0)) sigma)) - 3)) := by
  have hll : log_likelihood [a_0, k, sigma] model times areas
      = some (∑ i ∈ Finset.range times.length,
          Real.log (normalPdf (areas.getD i 0)
            (model a_0 k (times.getD i 0)) sigma)) := by
    rw [log_likelihood]
    congr 1
    rw [zipWith_sum_eq_range _ _ _ hlen.symm, hlen.symm]
    refine Finset.sum_congr rfl ?_
    intro i _
    rw [norm_logpdf_eq_log_normalPdf _ _ _ hs]
  refine ⟨hll, ?_⟩
  rw [compute_AIC, hll, Option.map_some']
  norm_num

/-- Witness for C5 at the concrete input `params = (0, 0, 1)`,
`times = [0]`, `areas = [0]`, with the model projecting onto `a_0`. -/
theorem log_likelihood_AIC_spec_witness :
    (0 : ℝ) < 1 ∧ ([(0 : ℝ)] : List ℝ).length = ([(0 : ℝ)] : List ℝ).length ∧
    log_likelihood [(0 : ℝ), 0, 1] (fun a _ _ => a) [(0 : ℝ)] [(0 : ℝ)]
      = some (∑ i ∈ Finset.range ([(0 : ℝ)] : List ℝ).length,
          Real.log (normalPdf (([(0 : ℝ)] : List ℝ).getD i 0)
            ((fun (a _ _ : ℝ) => a) 0 0 (([(0 : ℝ)] : List ℝ).getD i 0)) 1)) ∧
    compute_AIC [(0 : ℝ), 0, 1] (fun a _ _ => a) [(0 : ℝ)] [(0 : ℝ)]
      = some (-2 * ((∑ i ∈ Finset.range ([(0 : ℝ)] : List ℝ).length,
          Real.log (normalPdf (([(0 : ℝ)] : List ℝ).getD i 0)
            ((fun (a _ _ : ℝ) => a) 0 0 (([(0 : ℝ)] : List ℝ).getD i 0)) 1))
          - 3)) :=
  ⟨by norm_num, rfl,
    (log_likelihood_AIC_spec 0 0 1 (fun a _ _ => a) [(0 : ℝ)] [(0 : ℝ)]
      (by norm_num) rfl).1,
    (log_likelihood_AIC_spec 0 0 1 (fun a _ _ => a) [(0 : ℝ)] [(0 : ℝ)]
      (by norm_num) rfl).2⟩

/-- Claim C10: `log_likelihood` (and therefore `compute_AIC`) fails —
the Python destructuring `a_0, k, sigma = params` raises before any
computation — exactly when the parameter tuple does not have exactly
three elements, and whenever `log_likelihood` succeeds the
parameter-count penalty used by `compute_AIC` is exactly `3`. -/
theorem log_likelihood_params_three (params : List ℝ)
    (model : ℝ → ℝ → ℝ → ℝ) (times areas : List ℝ) :
    (log_likelihood params model times areas = none ↔ params.length ≠ 3) ∧
    (compute_AIC params model times areas = none ↔ params.length ≠ 3) ∧
    (∀ ll : ℝ, log_likelihood params model times areas = some ll →
      compute_AIC params model times areas = some (-2 * (ll - 3))) :=
  match params with
  | [] => by simp [log_likelihood, compute_AIC]
  | [a] => by simp [log_likelihood, compute_AIC]
  | [a, b] => by simp [log_likelihood, compute_AIC]
  | [a, b, c] => by
    refine ⟨by simp [log_likelihood], by simp [compute_AIC, log_likelihood], ?_⟩
    intro ll hll
    rw [compute_AIC, hll, Option.map_some']
    norm_num
  | a :: b :: c :: d :: t => by
    refine ⟨by simp [log_likelihood], by simp [compute_AIC, log_likelihood], ?_⟩
    intro ll hll
    simp [log_likelihood] at hll

/-- Witness for C10: a one-element tuple and a four-element tuple both
make `log_likelihood` and `compute_AIC` fail. -/
theorem log_likelihood_params_three_witness :
    log_likelihood [(1 : ℝ)] (fun a _ _ => a) [] [] = none ∧
    compute_AIC [(1 : ℝ), 2, 3, 4] (fun a _ _ => a) [] [] = none :=
  ⟨(log_likelihood_params_three [(1 : ℝ)] (fun a _ _ => a) [] []).1.mpr
      (by simp),
    (log_likelihood_params_three [(1 : ℝ), 2, 3, 4]
      (fun a _ _ => a) [] []).2.1.mpr (by simp)⟩
